import Mathlib

/-!
Shallow embedding of the gdelta core delta-compression engine
(src/buffer.rs, src/varint.rs, src/delta.rs) together with proofs about
its specification.

Modelling conventions:
* a Rust byte buffer is a `List Nat` (entries produced by the code are
  always < 256; machine integers are `Nat` with explicit `% 2 ^ 64`
  where u64 overflow could occur);
* a `BufferStream` being read sequentially is represented by the list
  suffix that remains after the cursor, so a read returns the value and
  the remaining suffix;
* fallible operations return `Except GDeltaError`;
* writer functions return the list of bytes they would append.
-/

namespace GDelta

/-- Error type of the library, mirroring `GDeltaError` in src/error.rs. -/
inductive GDeltaError where
  | InvalidDelta : String → GDeltaError
  | UnexpectedEndOfData : GDeltaError
  | SizeMismatch : Nat → Nat → GDeltaError
  | BufferError : String → GDeltaError
deriving DecidableEq

/-- Byte of a buffer at an index (indexing in the Rust code is always in
bounds; out-of-range reads default to 0 in the model). -/
def byteAt (l : List Nat) (i : Nat) : Nat := l.getD i 0

/-- The sub-buffer `l[i..j]`, as used by Rust slice expressions. -/
def slice (l : List Nat) (i j : Nat) : List Nat := (l.drop i).take (j - i)

/-- General-case loop of `write_varint` (src/varint.rs lines 41-50): emit
7 bits per byte, high bit set on every byte but the last. -/
def write_varint_loop (val : Nat) : List Nat :=
  if val >>> 7 = 0 then [val &&& 127]
  else (val &&& 127 ||| 128) :: write_varint_loop (val >>> 7)
termination_by val
decreasing_by
  rcases Nat.eq_zero_or_pos val with h0 | h0
  · subst h0; simp_all
  · simpa [Nat.shiftRight_eq_div_pow] using Nat.div_lt_self h0 (by norm_num)

/-- `write_varint` (src/varint.rs): fast paths for one and two bytes,
then the general loop. -/
def write_varint (value : Nat) : List Nat :=
  if value < 128 then [value]
  else if value < 16384 then [(value &&& 127) ||| 128, value >>> 7]
  else write_varint_loop value

/-- General-case loop of `read_varint` (src/varint.rs lines 73-81).  The
shift is a `u8` in Rust (hence `% 256`) and the `u64` shift masks its
amount in release builds (hence `% 64`); the accumulator is a `u64`. -/
def read_varint_loop : List Nat → Nat → Nat → Except GDeltaError (Nat × List Nat)
  | [], _, _ => .error .UnexpectedEndOfData
  | b :: rest, value, shift =>
    let value' := (value ||| ((b &&& 127) <<< (shift % 64))) % 2 ^ 64
    if b &&& 128 ≠ 0 then read_varint_loop rest value' ((shift + 7) % 256)
    else .ok (value', rest)

/-- `read_varint` (src/varint.rs): fast paths for one and two bytes,
then the general loop starting at shift 14. -/
def read_varint (s : List Nat) : Except GDeltaError (Nat × List Nat) :=
  match s with
  | [] => .error .UnexpectedEndOfData
  | b :: r =>
    if b &&& 128 = 0 then .ok (b, r)
    else
      match r with
      | [] => .error .UnexpectedEndOfData
      | b2 :: r2 =>
        if b2 &&& 128 = 0 then .ok ((b &&& 127) ||| (b2 <<< 7), r2)
        else read_varint_loop r2 ((b &&& 127) ||| ((b2 &&& 127) <<< 7)) 14

/-- A delta instruction unit (src/varint.rs, `DeltaUnit`). -/
structure DeltaUnit where
  is_copy : Bool
  length : Nat
  offset : Nat
deriving DecidableEq

/-- `DeltaUnit::copy` constructor. -/
def DeltaUnit.copy (offset length : Nat) : DeltaUnit := ⟨true, length, offset⟩

/-- `DeltaUnit::literal` constructor. -/
def DeltaUnit.literal (length : Nat) : DeltaUnit := ⟨false, length, 0⟩

/-- `write_delta_unit` (src/varint.rs): head byte
`[flag:1][more:1][length_low:6]`, optional varint with the remaining
length bits, optional offset varint for copies. -/
def write_delta_unit (u : DeltaUnit) : List Nat :=
  let flag : Nat := if u.is_copy then 1 else 0
  let head_length := u.length &&& 63
  let remaining_length := u.length >>> 6
  let more : Nat := if remaining_length > 0 then 1 else 0
  let head_byte := (flag <<< 7) ||| (more <<< 6) ||| head_length
  ([head_byte] ++ (if remaining_length > 0 then write_varint remaining_length else []))
    ++ (if u.is_copy then write_varint u.offset else [])

/-- `read_delta_unit` (src/varint.rs).  The reassembled length is a
`u64` in Rust, hence the `% 2 ^ 64`. -/
def read_delta_unit (s : List Nat) : Except GDeltaError (DeltaUnit × List Nat) :=
  match s with
  | [] => .error .UnexpectedEndOfData
  | head_byte :: r =>
    let is_copy := decide (head_byte &&& 128 ≠ 0)
    let more := decide (head_byte &&& 64 ≠ 0)
    let length0 := head_byte &&& 63
    let step1 : Except GDeltaError (Nat × List Nat) :=
      if more then
        match read_varint r with
        | .error e => .error e
        | .ok (remaining, r1) => .ok ((length0 ||| (remaining <<< 6)) % 2 ^ 64, r1)
      else .ok (length0, r)
    match step1 with
    | .error e => .error e
    | .ok (length, r1) =>
      if is_copy then
        match read_varint r1 with
        | .error e => .error e
        | .ok (offset, r2) => .ok (⟨is_copy, length, offset⟩, r2)
      else .ok (⟨is_copy, length, 0⟩, r1)

theorem read_varint_loop_rest_lt {s : List Nat} {v sh x : Nat} {r : List Nat}
    (h : read_varint_loop s v sh = .ok (x, r)) : r.length < s.length := by
  induction s generalizing v sh with
  | nil => simp [read_varint_loop] at h
  | cons b rest ih =>
    simp only [read_varint_loop] at h
    split at h
    · exact Nat.lt_trans (ih h) (by simp)
    · simp only [Except.ok.injEq, Prod.mk.injEq] at h
      simp [← h.2]

theorem read_varint_rest_lt {s : List Nat} {v : Nat} {r : List Nat}
    (h : read_varint s = .ok (v, r)) : r.length < s.length := by
  match s with
  | [] => simp [read_varint] at h
  | b :: rest =>
    simp only [read_varint] at h
    split at h
    · simp only [Except.ok.injEq, Prod.mk.injEq] at h
      simp [← h.2]
    · match rest with
      | [] => simp at h
      | b2 :: r2 =>
        simp only at h
        split at h
        · simp only [Except.ok.injEq, Prod.mk.injEq] at h
          simp only [← h.2]
          simp only [List.length_cons]
          omega
        · have := read_varint_loop_rest_lt h
          simp at this ⊢
          omega

theorem read_delta_unit_rest_lt {s : List Nat} {u : DeltaUnit} {r : List Nat}
    (h : read_delta_unit s = .ok (u, r)) : r.length < s.length := by
  match s with
  | [] => simp [read_delta_unit] at h
  | hb :: rest =>
    simp only [read_delta_unit] at h
    have step : ∀ {len : Nat} {r1 : List Nat},
        (if decide (hb &&& 64 ≠ 0) = true then
          match read_varint rest with
          | .error e => .error e
          | .ok (remaining, r1) =>
              .ok (((hb &&& 63) ||| (remaining <<< 6)) % 2 ^ 64, r1)
        else Except.ok ((hb &&& 63), rest)) = .ok (len, r1) →
        r1.length ≤ rest.length := by
      intro len r1 h1
      split at h1
      · match hrv : read_varint rest with
        | .error e => rw [hrv] at h1; simp at h1
        | .ok (rem, rr) =>
          rw [hrv] at h1
          simp only [Except.ok.injEq, Prod.mk.injEq] at h1
          have := read_varint_rest_lt hrv
          obtain ⟨-, h2⟩ := h1
          subst h2
          omega
      · simp only [Except.ok.injEq, Prod.mk.injEq] at h1
        simp [← h1.2]
    revert h
    split
    · next e heq => intro h; simp at h
    · next len r1 heq =>
      have hr1 : r1.length ≤ rest.length := step heq
      intro h
      split at h
      · match hrv : read_varint r1 with
        | .error e => rw [hrv] at h; simp at h
        | .ok (off, r2) =>
          rw [hrv] at h
          simp only [Except.ok.injEq, Prod.mk.injEq] at h
          have := read_varint_rest_lt hrv
          simp only [← h.2]
          simp
          omega
      · simp only [Except.ok.injEq, Prod.mk.injEq] at h
        simp [← h.2]
        omega

/-- The error message produced by `decode` for an out-of-bounds copy
(src/delta.rs lines 413-418). -/
def copy_oob_msg (offset length base_len : Nat) : String :=
  "Copy offset " ++ toString offset ++ " + length " ++ toString length ++
    " exceeds base size " ++ toString base_len

/-- The instruction-processing loop of `decode` (src/delta.rs lines
404-427).  `s` is the unread suffix of the whole delta blob and `stop`
is the number of bytes of the blob that lie at or beyond `inst_end`, so
`stop < s.length` is exactly `position < inst_end`.  `data_rem` is the
unread suffix of the literal-data stream. -/
def decode_loop (base_data : List Nat) :
    List Nat → Nat → List Nat → List Nat → Except GDeltaError (List Nat)
  | s, stop, data_rem, output =>
    if s.length ≤ stop then .ok output
    else
      match h : read_delta_unit s with
      | .error e => .error e
      | .ok (unit, s') =>
        if unit.is_copy then
          if unit.offset + unit.length > base_data.length then
            .error (.InvalidDelta (copy_oob_msg unit.offset unit.length base_data.length))
          else
            decode_loop base_data s' stop data_rem
              (output ++ slice base_data unit.offset (unit.offset + unit.length))
        else
          if data_rem.length < unit.length then .error .UnexpectedEndOfData
          else
            decode_loop base_data s' stop (data_rem.drop unit.length)
              (output ++ data_rem.take unit.length)
termination_by s _ _ _ => s.length
decreasing_by
  · exact read_delta_unit_rest_lt h
  · exact read_delta_unit_rest_lt h

/-- `decode` (src/delta.rs lines 381-430). -/
def decode (delta base_data : List Nat) : Except GDeltaError (List Nat) :=
  match read_varint delta with
  | .error e => .error e
  | .ok (instruction_len, rest) =>
    let inst_start := delta.length - rest.length
    let inst_end := inst_start + instruction_len
    if inst_end > delta.length then
      .error (.InvalidDelta "Instruction length exceeds delta size")
    else decode_loop base_data rest (delta.length - inst_end) (delta.drop inst_end) []

/-- Parses the delta units of an instruction stream the same way
`decode`'s loop walks it (same reader, same stop condition), but
collects the units instead of executing them. -/
def parse_units : List Nat → Nat → Except GDeltaError (List DeltaUnit)
  | s, stop =>
    if s.length ≤ stop then .ok []
    else
      match h : read_delta_unit s with
      | .error e => .error e
      | .ok (unit, s') =>
        match parse_units s' stop with
        | .error e => .error e
        | .ok us => .ok (unit :: us)
termination_by s _ => s.length
decreasing_by exact read_delta_unit_rest_lt h

/-- The delta units contained in the instruction stream of a delta
blob, using the same framing as `decode`. -/
def instr_units (delta : List Nat) : Except GDeltaError (List DeltaUnit) :=
  match read_varint delta with
  | .error e => .error e
  | .ok (instruction_len, rest) =>
    if instruction_len > rest.length then
      .error (.InvalidDelta "Instruction length exceeds delta size")
    else parse_units rest (rest.length - instruction_len)

/-- A copy unit whose source range runs past the end of the base. -/
def is_bad_copy (base_len : Nat) (u : DeltaUnit) : Bool :=
  u.is_copy && decide (u.offset + u.length > base_len)

/-- Whether the instruction stream of `delta` parses and contains a
copy unit with `offset + length > base_data.length`. -/
def has_bad_copy (delta base_data : List Nat) : Bool :=
  match instr_units delta with
  | .error _ => false
  | .ok us => us.any (is_bad_copy base_data.length)

/-- Executes a list of delta units the way `decode`'s loop does,
returning the output and the unread suffix of the literal-data
stream. -/
def exec_units (base_data : List Nat) :
    List DeltaUnit → List Nat → List Nat → Except GDeltaError (List Nat × List Nat)
  | [], data_rem, output => .ok (output, data_rem)
  | u :: us, data_rem, output =>
    if u.is_copy then
      if u.offset + u.length > base_data.length then
        .error (.InvalidDelta (copy_oob_msg u.offset u.length base_data.length))
      else
        exec_units base_data us data_rem
          (output ++ slice base_data u.offset (u.offset + u.length))
    else
      if data_rem.length < u.length then .error .UnexpectedEndOfData
      else exec_units base_data us (data_rem.drop u.length) (output ++ data_rem.take u.length)

/-- `MIN_MATCH_LENGTH` (src/delta.rs line 9). -/
def MIN_MATCH_LENGTH : Nat := 16

/-- Length of the longest common byte prefix of two buffers.
`find_common_prefix` (src/delta.rs lines 92-128) computes exactly this:
its 8/16-byte chunked fast paths only speed up the byte-by-byte scan. -/
def find_common_prefix_len : List Nat → List Nat → Nat
  | x :: xs, y :: ys => if x = y then find_common_prefix_len xs ys + 1 else 0
  | _, _ => 0

/-- `find_common_suffix` (src/delta.rs lines 131-174): the longest
common byte suffix, capped so it does not intrude into the first
`p` bytes of either buffer (`max_len = min (a.len - p) (b.len - p)`). -/
def find_common_suffix_len (a b : List Nat) (p : Nat) : Nat :=
  min (find_common_prefix_len a.reverse b.reverse) (min (a.length - p) (b.length - p))

/-- The `while temp > 0` loop of `calculate_hash_bits`
(src/delta.rs lines 177-185). -/
def count_bits_loop (temp bits : Nat) : Nat :=
  if temp > 0 then count_bits_loop (temp >>> 1) (bits + 1) else bits
termination_by temp
decreasing_by
  simpa [Nat.shiftRight_eq_div_pow] using Nat.div_lt_self (by omega) (by norm_num)

/-- `calculate_hash_bits` (src/delta.rs lines 177-185): the number of
binary digits of `size + 10`. -/
def calculate_hash_bits (size : Nat) : Nat := count_bits_loop (size + 10) 0

/-- Modelled from the spec: `WORD_SIZE` of the missing src/gear.rs
module; the spec fixes the rolling-hash window width `W = 8`. -/
def WORD_SIZE : Nat := 8

/-- Modelled from the spec: the fixed 256-entry table `G` of 64-bit
constants of the missing src/gear.rs module.  The concrete constants are
not in src/ and no claim depends on their values (the encoder verifies
every candidate match byte-for-byte), so any fixed table satisfies the
spec; we use an arbitrary fixed mixing function. -/
def gear_table (b : Nat) : Nat :=
  (b * 11400714819323198485 + 5871781006564002453) % 2 ^ 64

/-- Modelled from the spec: `compute_fingerprint` of the missing
src/gear.rs module; `FP(p) = Σ G(b(p+i)) <<< (W-1-i) (mod 2^64)`. -/
def compute_fingerprint (data : List Nat) (pos : Nat) : Nat :=
  (List.range WORD_SIZE).foldl
    (fun acc i => acc + (gear_table (byteAt data (pos + i)) <<< (WORD_SIZE - 1 - i))) 0
    % 2 ^ 64

/-- Modelled from the spec: `roll_fingerprint` of the missing
src/gear.rs module; `FP ← (FP <<< 1) + G(new_byte) (mod 2^64)`. -/
def roll_fingerprint (fp b : Nat) : Nat := ((fp <<< 1) + gear_table b) % 2 ^ 64

/-- Modelled from the spec: the index-build loop of `build_hash_table`
of the missing src/gear.rs module.  For `p = lo .. hi - W` (rolling the
fingerprint from `FP(lo)`) it stores `p` (a `u32`) into slot
`FP(p) >>> (64 - H)`; later writes win. -/
def build_hash_table_loop (data : List Nat) (hi bits : Nat) :
    Nat → Nat → List Nat → List Nat
  | p, fp, table =>
    if h7 : p + WORD_SIZE ≤ hi then
      build_hash_table_loop data hi bits (p + 1)
        (roll_fingerprint fp (byteAt data (p + WORD_SIZE)))
        (table.set (fp >>> (64 - bits)) (p % 2 ^ 32))
    else table
termination_by p _ _ => hi - p
decreasing_by
  simp only [WORD_SIZE] at h7
  omega

/-- Modelled from the spec: `build_hash_table` of the missing
src/gear.rs module; `2^H` slots initialised to the empty sentinel 0. -/
def build_hash_table (data : List Nat) (lo hi bits : Nat) : List Nat :=
  build_hash_table_loop data hi bits lo (compute_fingerprint data lo)
    (List.replicate (2 ^ bits) 0)

/-- The byte-by-byte extension loop of `extend_match`
(src/delta.rs lines 300-361); as with the prefix/suffix scans, the
8/16-byte chunked fast paths compute the same count. -/
def extend_loop (new_data base_data : List Nat) (new_pos base_pos new_end base_end : Nat)
    (len : Nat) : Nat :=
  if new_pos + len < new_end ∧ base_pos + len < base_end ∧
      byteAt new_data (new_pos + len) = byteAt base_data (base_pos + len) then
    extend_loop new_data base_data new_pos base_pos new_end base_end (len + 1)
  else len
termination_by new_end - (new_pos + len)
decreasing_by omega

/-- `extend_match` (src/delta.rs lines 300-361): greedy forward
extension starting from the verified `WORD_SIZE` bytes. -/
def extend_match (new_data base_data : List Nat)
    (new_pos base_pos new_end base_end : Nat) : Nat :=
  extend_loop new_data base_data new_pos base_pos new_end base_end WORD_SIZE

theorem extend_loop_ge (new_data base_data : List Nat)
    (new_pos base_pos new_end base_end len : Nat) :
    len ≤ extend_loop new_data base_data new_pos base_pos new_end base_end len := by
  rw [extend_loop]
  split
  · have := extend_loop_ge new_data base_data new_pos base_pos new_end base_end (len + 1)
    omega
  · exact Nat.le_refl len
termination_by new_end - (new_pos + len)
decreasing_by omega

/-- Emission step of the middle-scan loop on a verified match
(src/delta.rs lines 258-274): flush the pending literal
`[lit_start, pos)` if non-empty, then emit the copy, in front of
whatever the rest of the loop produces. -/
def encode_middle_emit (new_data : List Nat) (pos lit_start base_offset match_len : Nat)
    (rest : List DeltaUnit × List Nat) : List DeltaUnit × List Nat :=
  ((if pos > lit_start then [DeltaUnit.literal (pos - lit_start)] else []) ++
      DeltaUnit.copy base_offset match_len :: rest.1,
    (if pos > lit_start then slice new_data lit_start pos else []) ++ rest.2)

/-- The main scan loop of `encode_middle_section` (src/delta.rs lines
243-296).  Instead of serialized bytes the model accumulates the list
of emitted delta units and the literal-data bytes; the real instruction
stream is their serialization (see `units_bytes`), since every write
into it goes through `write_delta_unit`.  The source's local variables
`hash_index`, `base_offset` and `match_len` are inlined
(`base_offset = byteAt table (fp >>> shift)`). -/
def encode_middle_loop (new_data base_data : List Nat) (end_ base_end : Nat)
    (table : List Nat) (shift : Nat) :
    Nat → Nat → Nat → List DeltaUnit × List Nat
  | pos, lit_start, fp =>
    if h : pos + WORD_SIZE ≤ end_ then
      if hm : byteAt table (fp >>> shift) > 0 ∧
          byteAt table (fp >>> shift) + WORD_SIZE ≤ base_end ∧
          slice new_data pos (pos + WORD_SIZE) =
            slice base_data (byteAt table (fp >>> shift))
              (byteAt table (fp >>> shift) + WORD_SIZE) then
        encode_middle_emit new_data pos lit_start (byteAt table (fp >>> shift))
          (extend_match new_data base_data pos (byteAt table (fp >>> shift)) end_ base_end)
          (encode_middle_loop new_data base_data end_ base_end table shift
            (pos + extend_match new_data base_data pos (byteAt table (fp >>> shift))
              end_ base_end)
            (pos + extend_match new_data base_data pos (byteAt table (fp >>> shift))
              end_ base_end)
            (if pos + extend_match new_data base_data pos (byteAt table (fp >>> shift))
                end_ base_end + WORD_SIZE ≤ end_ then
              compute_fingerprint new_data
                (pos + extend_match new_data base_data pos (byteAt table (fp >>> shift))
                  end_ base_end)
            else fp))
      else
        encode_middle_loop new_data base_data end_ base_end table shift (pos + 1) lit_start
          (if pos + 1 + WORD_SIZE ≤ end_ then
            roll_fingerprint fp (byteAt new_data (pos + 1 + WORD_SIZE - 1))
          else fp)
    else
      if lit_start < end_ then
        ([DeltaUnit.literal (end_ - lit_start)], slice new_data lit_start end_)
      else ([], [])
termination_by pos _ _ => end_ - pos
decreasing_by
  · have h8 : (8 : Nat) ≤
        extend_match new_data base_data pos (byteAt table (fp >>> shift)) end_ base_end :=
      extend_loop_ge new_data base_data pos (byteAt table (fp >>> shift)) end_ base_end 8
    simp only [WORD_SIZE] at h
    omega
  · simp only [WORD_SIZE] at h
    omega

/-- `encode_middle_section` (src/delta.rs lines 222-297), as the pair
(units, literal data). -/
def encode_middle_section (new_data base_data : List Nat) (start end_ base_end : Nat)
    (table : List Nat) (shift : Nat) : List DeltaUnit × List Nat :=
  if start ≥ end_ ∨ end_ - start < WORD_SIZE then
    if start < end_ then ([DeltaUnit.literal (end_ - start)], slice new_data start end_)
    else ([], [])
  else
    encode_middle_loop new_data base_data end_ base_end table shift start start
      (compute_fingerprint new_data start)

/-- `encode_trivial_case` (src/delta.rs lines 188-217), as the pair
(units, literal data).  Note the trailing copy's offset is computed
from `new_size`, exactly as in the source. -/
def encode_trivial_case (new_data : List Nat) (prefix_size suffix_size : Nat) :
    List DeltaUnit × List Nat :=
  let new_size := new_data.length
  let middle_size := new_size - prefix_size - suffix_size
  ((if prefix_size > 0 then [DeltaUnit.copy 0 prefix_size] else []) ++
      (if middle_size > 0 then [DeltaUnit.literal middle_size] else []) ++
      (if suffix_size > 0 then [DeltaUnit.copy (new_size - suffix_size) suffix_size] else []),
    if middle_size > 0 then slice new_data prefix_size (new_size - suffix_size) else [])

/-- Serialization of an instruction stream: the concatenation of the
`write_delta_unit` encodings of the units, in emission order. -/
def units_bytes (us : List DeltaUnit) : List Nat := (us.map write_delta_unit).flatten

/-- `finalize_delta` (src/delta.rs lines 364-377). -/
def finalize_delta (instruction_stream data_stream : List Nat) : List Nat :=
  write_varint instruction_stream.length ++ instruction_stream ++ data_stream

/-- `encode` (src/delta.rs lines 17-89). -/
def encode (new_data base_data : List Nat) : List Nat :=
  let new_size := new_data.length
  let base_size := base_data.length
  let prefix_len := find_common_prefix_len new_data base_data
  let has_prefix_match := prefix_len ≥ MIN_MATCH_LENGTH
  let prefix_size := if has_prefix_match then prefix_len else 0
  let suffix_len := find_common_suffix_len new_data base_data prefix_size
  let suffix_size0 := if suffix_len ≥ MIN_MATCH_LENGTH then suffix_len else 0
  let suffix_size :=
    if prefix_size + suffix_size0 > new_size then new_size - prefix_size else suffix_size0
  if prefix_size + suffix_size ≥ base_size then
    let r := encode_trivial_case new_data prefix_size suffix_size
    finalize_delta (units_bytes r.1) r.2
  else
    let prefix_units := if has_prefix_match then [DeltaUnit.copy 0 prefix_size] else []
    let work_base_size := base_size - prefix_size - suffix_size
    let hash_bits := calculate_hash_bits work_base_size
    let table := build_hash_table base_data prefix_size (base_size - suffix_size) hash_bits
    let hash_shift := 64 - hash_bits
    let mid := encode_middle_section new_data base_data prefix_size (new_size - suffix_size)
      (base_size - suffix_size) table hash_shift
    let suffix_units :=
      if suffix_size > 0 then [DeltaUnit.copy (base_size - suffix_size) suffix_size] else []
    finalize_delta (units_bytes (prefix_units ++ mid.1 ++ suffix_units)) mid.2

/-- The spec's formula for the number of hash bits
(`H = ⌈log2(L + 10)⌉`, minimum 1, maximum 32), stated with Mathlib's
ceiling logarithm; definition written from the spec's words for
comparison with `calculate_hash_bits`. -/
def spec_hash_bits (l : Nat) : Nat := min (max (Nat.clog 2 (l + 10)) 1) 32

/-- Well-formedness of a unit as emitted by the encoder: `u64` fields
and a zero offset on literals (so serialization round-trips). -/
def unit_wf (u : DeltaUnit) : Prop :=
  u.length < 2 ^ 64 ∧ u.offset < 2 ^ 64 ∧ (u.is_copy = false → u.offset = 0)

instance unit_wf_decidable (u : DeltaUnit) : Decidable (unit_wf u) := by
  unfold unit_wf
  infer_instance

/-- Failing input for C1: a base of 16 distinct bytes and a new blob
that prepends one byte to it.  The common suffix is the whole base, so
the trivial case fires with `prefix = 0`, `suffix = 16`. -/
def c1_base : List Nat := [65, 66, 67, 68, 69, 70, 71, 72, 73, 74, 75, 76, 77, 78, 79, 80]

/-- New blob for C1: one extra byte in front of `c1_base`. -/
def c1_new : List Nat := 120 :: c1_base

/-- Failing input for C2 (same shape as C1, different bytes). -/
def c2_base : List Nat := [81, 82, 83, 84, 85, 86, 87, 88, 89, 90, 91, 92, 93, 94, 95, 96]

/-- New blob for C2. -/
def c2_new : List Nat := 121 :: c2_base

/-- Failing input for C3 (same shape again, different bytes). -/
def c3_base : List Nat := [1, 2, 3, 4, 5, 6, 7, 8, 9, 10, 11, 12, 13, 14, 15, 16]

/-- New blob for C3. -/
def c3_new : List Nat := 200 :: c3_base

/-- Base blob for the C5 counterexample. -/
def c5_base : List Nat := [0, 1, 2]

/-- Delta for the C5 counterexample: instruction stream
`[Literal 5, Copy offset 2 length 2]` with an empty literal-data
stream.  The copy is out of bounds for `c5_base` (2 + 2 > 3), but the
literal fails first. -/
def c5_delta : List Nat := [3, 5, 130, 2]

/-- Delta for the C5 witness: a single copy `offset 0, length 1`
against an empty base. -/
def c5w_delta : List Nat := [2, 129, 0]

theorem and_mask127 (n : Nat) : n &&& 127 = n % 128 := by
  have h := Nat.and_pow_two_sub_one_eq_mod n 7
  norm_num at h
  exact h

theorem and_mask63 (n : Nat) : n &&& 63 = n % 64 := by
  have h := Nat.and_pow_two_sub_one_eq_mod n 6
  norm_num at h
  exact h

theorem lor_shift_eq_add {a : Nat} (b : Nat) {k : Nat} (h : a < 2 ^ k) :
    a ||| b <<< k = a + b * 2 ^ k := by
  rw [Nat.shiftLeft_eq, Nat.mul_comm b (2 ^ k), Nat.or_comm,
    ← Nat.mul_add_lt_is_or h b, Nat.add_comm]

theorem byte_lt128_and128 : ∀ x < 128, x &&& 128 = 0 := by decide

theorem byte_or128_and128 : ∀ x < 128, (x ||| 128) &&& 128 = 128 := by decide

theorem byte_or128_and127 : ∀ x < 128, (x ||| 128) &&& 127 = x := by decide

theorem shift_lt_64_of_bound {val shift : Nat} (hval : 0 < val)
    (hbound : val * 2 ^ shift < 2 ^ 64) : shift < 64 := by
  by_contra hc
  push_neg at hc
  have h1 : 2 ^ 64 ≤ 2 ^ shift := Nat.pow_le_pow_right (by norm_num) hc
  have h2 : 2 ^ shift ≤ val * 2 ^ shift := Nat.le_mul_of_pos_left _ hval
  omega

theorem val_lt_of_bound {val shift : Nat} (hs : shift ≤ 64)
    (hbound : val * 2 ^ shift < 2 ^ 64) : val < 2 ^ (64 - shift) := by
  have hsplit : 2 ^ 64 = 2 ^ (64 - shift) * 2 ^ shift := by
    rw [← Nat.pow_add]
    congr 1
    omega
  rw [hsplit] at hbound
  exact Nat.lt_of_mul_lt_mul_right hbound

theorem add_bound_of_mul_bound {value val shift : Nat} (hvalue : value < 2 ^ shift)
    (hs : shift ≤ 64) (hbound : val * 2 ^ shift < 2 ^ 64) :
    value + val * 2 ^ shift < 2 ^ 64 := by
  have hv : val < 2 ^ (64 - shift) := val_lt_of_bound hs hbound
  have h1 : val + 1 ≤ 2 ^ (64 - shift) := hv
  have h2 : (val + 1) * 2 ^ shift ≤ 2 ^ (64 - shift) * 2 ^ shift :=
    Nat.mul_le_mul_right _ h1
  have hsplit : 2 ^ (64 - shift) * 2 ^ shift = 2 ^ 64 := by
    rw [← Nat.pow_add]
    congr 1
    omega
  have h3 : value + val * 2 ^ shift < (val + 1) * 2 ^ shift := by
    have : (val + 1) * 2 ^ shift = val * 2 ^ shift + 2 ^ shift := by ring
    omega
  omega

theorem read_write_varint_loop (val : Nat) :
    ∀ (value shift : Nat) (rest : List Nat), 0 < val → value < 2 ^ shift →
    val * 2 ^ shift < 2 ^ 64 →
    read_varint_loop (write_varint_loop val ++ rest) value shift =
      .ok (value + val * 2 ^ shift, rest) := by
  induction val using Nat.strong_induction_on with
  | _ val ih =>
    intro value shift rest hval hvalue hbound
    have hs64 : shift < 64 := shift_lt_64_of_bound hval hbound
    have hmod64 : shift % 64 = shift := Nat.mod_eq_of_lt hs64
    have hv128 : val % 128 < 128 := Nat.mod_lt _ (by norm_num)
    rw [write_varint_loop]
    split
    · next h0 =>
      have hvlt : val < 128 := by
        rw [Nat.shiftRight_eq_div_pow] at h0
        norm_num at h0
        omega
      have hband : val &&& 127 = val := by
        rw [and_mask127]
        exact Nat.mod_eq_of_lt hvlt
      simp only [List.cons_append, read_varint_loop, hband]
      rw [if_neg (by simp [byte_lt128_and128 val hvlt])]
      have hlt : val &&& 128 = 0 := byte_lt128_and128 val hvlt
      simp only [hband, hmod64]
      rw [lor_shift_eq_add val hvalue]
      rw [Nat.mod_eq_of_lt (add_bound_of_mul_bound hvalue (by omega) hbound)]
      simp
    · next h0 =>
      have hb127 : (val &&& 127 ||| 128) &&& 127 = val % 128 := by
        rw [and_mask127 val]
        exact byte_or128_and127 _ hv128
      have hb128 : (val &&& 127 ||| 128) &&& 128 = 128 := by
        rw [and_mask127 val]
        exact byte_or128_and128 _ hv128
      simp only [List.cons_append, read_varint_loop]
      rw [if_pos (by simp [hb128])]
      have hlt7 : val >>> 7 < val := by
        rw [Nat.shiftRight_eq_div_pow]
        exact Nat.div_lt_self hval (by norm_num)
      have hdiv : val >>> 7 = val / 128 := by
        rw [Nat.shiftRight_eq_div_pow]
      have hpos7 : 0 < val >>> 7 := Nat.pos_of_ne_zero h0
      have hmul : (val % 128) * 2 ^ shift ≤ val * 2 ^ shift :=
        Nat.mul_le_mul_right _ (Nat.mod_le _ _)
      have hval' : value + (val % 128) * 2 ^ shift < 2 ^ 64 := by
        have := add_bound_of_mul_bound hvalue (by omega) hbound
        omega
      have hvalue' : value + (val % 128) * 2 ^ shift < 2 ^ (shift + 7) := by
        have h1 : (val % 128) * 2 ^ shift ≤ 127 * 2 ^ shift :=
          Nat.mul_le_mul_right _ (by omega)
        have h2 : 2 ^ (shift + 7) = 128 * 2 ^ shift := by
          rw [Nat.pow_add]
          ring
        omega
      have hbound' : (val >>> 7) * 2 ^ (shift + 7) ≤ val * 2 ^ shift := by
        rw [hdiv]
        have h2 : 2 ^ (shift + 7) = 2 ^ shift * 128 := by
          rw [Nat.pow_add]
        rw [h2, ← Nat.mul_assoc]
        have : val / 128 * 2 ^ shift * 128 = val / 128 * 128 * 2 ^ shift := by ring
        rw [this]
        exact Nat.mul_le_mul_right _ (Nat.div_mul_le_self val 128)
      have hstep := ih (val >>> 7) hlt7 (value + (val % 128) * 2 ^ shift) (shift + 7) rest
        hpos7 hvalue' (by omega)
      simp only [hb127, hmod64]
      rw [lor_shift_eq_add (val % 128) hvalue]
      rw [Nat.mod_eq_of_lt hval']
      rw [Nat.mod_eq_of_lt (by omega : shift + 7 < 256)]
      rw [List.append_eq, hstep]
      congr 2
      rw [hdiv]
      have : val / 128 * 2 ^ (shift + 7) = val / 128 * 128 * 2 ^ shift := by
        rw [Nat.pow_add]
        ring
      rw [this]
      have hx : val % 128 * 2 ^ shift + val / 128 * 128 * 2 ^ shift = val * 2 ^ shift := by
        rw [← Nat.add_mul, Nat.mod_add_div' val 128]
      omega

theorem read_write_varint (v : Nat) (hv : v < 2 ^ 64) (rest : List Nat) :
    read_varint (write_varint v ++ rest) = .ok (v, rest) := by
  rw [write_varint]
  split
  · next h =>
    simp only [List.cons_append, List.nil_append, read_varint]
    rw [if_pos (byte_lt128_and128 v h)]
  · next h =>
    push_neg at h
    have h1 : v % 128 < 128 := Nat.mod_lt _ (by norm_num)
    have hb128 : (v &&& 127 ||| 128) &&& 128 = 128 := by
      rw [and_mask127 v]
      exact byte_or128_and128 _ h1
    have hb127 : (v &&& 127 ||| 128) &&& 127 = v % 128 := by
      rw [and_mask127 v]
      exact byte_or128_and127 _ h1
    split
    · next h2 =>
      have hdiv : v >>> 7 = v / 128 := by rw [Nat.shiftRight_eq_div_pow]
      have hdivlt : v / 128 < 128 := by omega
      simp only [List.cons_append, List.nil_append, read_varint]
      rw [if_neg (by simp [hb128])]
      rw [if_pos (by rw [hdiv]; exact byte_lt128_and128 _ hdivlt)]
      rw [hb127, hdiv, lor_shift_eq_add (v / 128) h1]
      norm_num
      rw [Nat.mod_add_div' v 128]
    · next h2 =>
      push_neg at h2
      have hd7 : v >>> 7 = v / 128 := by rw [Nat.shiftRight_eq_div_pow]
      have hd14 : v >>> 7 >>> 7 = v / 16384 := by
        rw [Nat.shiftRight_eq_div_pow, Nat.shiftRight_eq_div_pow]
        rw [Nat.div_div_eq_div_mul]
      have hne7 : ¬v >>> 7 = 0 := by omega
      have hne14 : ¬v >>> 7 >>> 7 = 0 := by omega
      rw [write_varint_loop, if_neg hne7, write_varint_loop, if_neg hne14]
      have h17 : v / 128 % 128 < 128 := Nat.mod_lt _ (by norm_num)
      have hb128b : (v >>> 7 &&& 127 ||| 128) &&& 128 = 128 := by
        rw [and_mask127]
        exact byte_or128_and128 _ (Nat.mod_lt _ (by norm_num))
      have hb127b : (v >>> 7 &&& 127 ||| 128) &&& 127 = v / 128 % 128 := by
        rw [and_mask127 (v >>> 7), hd7]
        exact byte_or128_and127 _ h17
      simp only [List.cons_append, read_varint]
      rw [if_neg (by simp [hb128])]
      rw [if_neg (by simp [hb128b])]
      rw [hb127, hb127b]
      rw [lor_shift_eq_add (v / 128 % 128) h1]
      have hval0 : v % 128 + v / 128 % 128 * 2 ^ 7 = v % 16384 := by omega
      rw [hval0]
      have hrec := read_write_varint_loop (v >>> 7 >>> 7) (v % 16384) 14 rest
        (by omega) (by omega)
        (by
          rw [hd14]
          have := Nat.div_mul_le_self v 16384
          norm_num
          omega)
      rw [hrec]
      rw [hd14]
      norm_num
      omega

/-- Reading from an extended stream: a successful varint-loop read is
unchanged when bytes are appended after the stream. -/
theorem read_varint_loop_append {s : List Nat} {v sh x : Nat} {r : List Nat}
    (t : List Nat) (h : read_varint_loop s v sh = .ok (x, r)) :
    read_varint_loop (s ++ t) v sh = .ok (x, r ++ t) := by
  induction s generalizing v sh with
  | nil => simp [read_varint_loop] at h
  | cons b rest ih =>
    simp only [List.cons_append, read_varint_loop] at h ⊢
    split at h
    · next hc =>
      rw [if_pos hc]
      exact ih h
    · next hc =>
      rw [if_neg hc]
      simp only [Except.ok.injEq, Prod.mk.injEq] at h ⊢
      obtain ⟨h1, h2⟩ := h
      subst h2
      exact ⟨h1, rfl⟩

/-- A successful `read_varint` is unchanged when bytes are appended. -/
theorem read_varint_append {s : List Nat} {v : Nat} {r : List Nat}
    (t : List Nat) (h : read_varint s = .ok (v, r)) :
    read_varint (s ++ t) = .ok (v, r ++ t) := by
  match s with
  | [] => simp [read_varint] at h
  | b :: rest =>
    rw [List.cons_append]
    simp only [read_varint] at h ⊢
    split at h
    · next hc =>
      rw [if_pos hc]
      simp only [Except.ok.injEq, Prod.mk.injEq] at h ⊢
      exact ⟨h.1, by rw [← h.2]⟩
    · next hc =>
      rw [if_neg hc]
      match rest with
      | [] => simp at h
      | b2 :: r2 =>
        simp only [List.cons_append]
        simp only at h
        split at h
        · next hc2 =>
          rw [if_pos hc2]
          simp only [Except.ok.injEq, Prod.mk.injEq] at h ⊢
          obtain ⟨h1, h2⟩ := h
          subst h2
          exact ⟨h1, rfl⟩
        · next hc2 =>
          rw [if_neg hc2]
          exact read_varint_loop_append t h

/-- A successful `read_delta_unit` is unchanged when bytes are
appended. -/
theorem read_delta_unit_append {s : List Nat} {u : DeltaUnit} {r : List Nat}
    (t : List Nat) (h : read_delta_unit s = .ok (u, r)) :
    read_delta_unit (s ++ t) = .ok (u, r ++ t) := by
  match s with
  | [] => simp [read_delta_unit] at h
  | hb :: rest =>
    simp only [read_delta_unit] at h
    revert h
    split
    · next e heq => intro h; simp at h
    · next len r1 heq =>
      intro h
      have hstep : (if decide (hb &&& 64 ≠ 0) = true then
          match read_varint (rest ++ t) with
          | .error e => .error e
          | .ok (remaining, r1) =>
              .ok (((hb &&& 63) ||| (remaining <<< 6)) % 2 ^ 64, r1)
        else Except.ok ((hb &&& 63), rest ++ t)) = .ok (len, r1 ++ t) := by
        split at heq
        · next hm =>
          match hrv : read_varint rest with
          | .error e => rw [hrv] at heq; simp at heq
          | .ok (rem, rr) =>
            rw [hrv] at heq
            simp only [Except.ok.injEq, Prod.mk.injEq] at heq
            rw [if_pos hm, read_varint_append t hrv]
            simp only [Except.ok.injEq, Prod.mk.injEq]
            exact ⟨heq.1, by rw [heq.2]⟩
        · next hm =>
          rw [if_neg hm]
          simp only [Except.ok.injEq, Prod.mk.injEq] at heq ⊢
          exact ⟨heq.1, by rw [heq.2]⟩
      rw [List.cons_append]
      simp only [read_delta_unit, hstep]
      split at h
      · next hm =>
        match hrv : read_varint r1 with
        | .error e => rw [hrv] at h; simp at h
        | .ok (off, r2) =>
          rw [hrv] at h
          simp only [Except.ok.injEq, Prod.mk.injEq] at h
          rw [if_pos hm, read_varint_append t hrv]
          simp only [Except.ok.injEq, Prod.mk.injEq]
          exact ⟨h.1, by rw [h.2]⟩
      · next hm =>
        rw [if_neg hm]
        simp only [Except.ok.injEq, Prod.mk.injEq] at h ⊢
        obtain ⟨h1, h2⟩ := h
        subst h2
        exact ⟨h1, rfl⟩

theorem head0_bits : ∀ x < 64, x &&& 128 = 0 ∧ x &&& 64 = 0 ∧ x &&& 63 = x := by decide

theorem head64_bits : ∀ x < 64,
    (64 ||| x) &&& 128 = 0 ∧ (64 ||| x) &&& 64 = 64 ∧ (64 ||| x) &&& 63 = x := by decide

theorem head128_bits : ∀ x < 64,
    (128 ||| x) &&& 128 = 128 ∧ (128 ||| x) &&& 64 = 0 ∧ (128 ||| x) &&& 63 = x := by decide

theorem head192_bits : ∀ x < 64,
    (192 ||| x) &&& 128 = 128 ∧ (192 ||| x) &&& 64 = 64 ∧ (192 ||| x) &&& 63 = x := by decide

theorem length_recombine {len : Nat} (h : len < 2 ^ 64) :
    ((len &&& 63) ||| ((len >>> 6) <<< 6)) % 18446744073709551616 = len := by
  rw [and_mask63]
  rw [lor_shift_eq_add (len >>> 6) (by norm_num [Nat.mod_lt] : len % 64 < 2 ^ 6)]
  rw [Nat.shiftRight_eq_div_pow]
  norm_num
  omega

/-- Round-trip of a single serialized delta unit, for units the encoder
can emit (`u64` fields, zero offset on literals), with arbitrary
trailing bytes. -/
theorem read_write_delta_unit (u : DeltaUnit) (hlen : u.length < 2 ^ 64)
    (hoff : u.offset < 2 ^ 64) (hlit : u.is_copy = false → u.offset = 0) (t : List Nat) :
    read_delta_unit (write_delta_unit u ++ t) = .ok (u, t) := by
  obtain ⟨c, len, off⟩ := u
  simp only at hlen hoff hlit
  have h63 : len &&& 63 < 64 := by rw [and_mask63]; omega
  have hrem : len >>> 6 = len / 64 := by rw [Nat.shiftRight_eq_div_pow]
  have hrem64 : len >>> 6 < 2 ^ 64 := by omega
  cases c with
  | false =>
    have hoff0 : off = 0 := hlit rfl
    subst hoff0
    by_cases hm : len >>> 6 > 0
    · have hb := head64_bits (len &&& 63) h63
      have hw : write_delta_unit ⟨false, len, 0⟩ =
          (64 ||| (len &&& 63)) :: write_varint (len >>> 6) := by
        simp [write_delta_unit, hm]
      rw [hw, List.cons_append]
      simp only [read_delta_unit]
      rw [read_write_varint (len >>> 6) hrem64 t]
      simp [hb.1, hb.2.1, hb.2.2, length_recombine hlen]
    · have hm0 : len >>> 6 = 0 := by omega
      have hlen64 : len < 64 := by omega
      have hx : len &&& 63 = len := by rw [and_mask63]; omega
      have hb := head0_bits len hlen64
      have hw : write_delta_unit ⟨false, len, 0⟩ = [len] := by
        simp [write_delta_unit, hm0, hx]
      rw [hw, List.singleton_append]
      simp only [read_delta_unit]
      simp [hb.1, hb.2.1, hb.2.2]
  | true =>
    by_cases hm : len >>> 6 > 0
    · have hb := head192_bits (len &&& 63) h63
      have hw : write_delta_unit ⟨true, len, off⟩ =
          (192 ||| (len &&& 63)) :: (write_varint (len >>> 6) ++ write_varint off) := by
        simp [write_delta_unit, hm]
      rw [hw, List.cons_append]
      simp only [read_delta_unit]
      rw [List.append_assoc]
      rw [read_write_varint (len >>> 6) hrem64 (write_varint off ++ t)]
      simp [hb.1, hb.2.1, hb.2.2, length_recombine hlen, read_write_varint off hoff t]
    · have hm0 : len >>> 6 = 0 := by omega
      have hlen64 : len < 64 := by omega
      have hx : len &&& 63 = len := by rw [and_mask63]; omega
      have hb := head128_bits len hlen64
      have hw : write_delta_unit ⟨true, len, off⟩ = (128 ||| len) :: write_varint off := by
        simp [write_delta_unit, hm0, hx]
      rw [hw, List.cons_append]
      simp only [read_delta_unit]
      simp [hb.1, hb.2.1, hb.2.2, read_write_varint off hoff t]

theorem write_varint_lt128 (v : Nat) (h : v < 128) : write_varint v = [v] := by
  rw [write_varint, if_pos h]

theorem write_varint_loop_length_le (val : Nat) :
    ∀ k, 0 < k → val < 2 ^ (7 * k) → (write_varint_loop val).length ≤ k := by
  induction val using Nat.strong_induction_on with
  | _ val ih =>
    intro k hk hval
    rw [write_varint_loop]
    split
    · simpa using hk
    · next h0 =>
      have hd : val >>> 7 = val / 128 := by rw [Nat.shiftRight_eq_div_pow]
      have hlt : val >>> 7 < val := by
        rw [hd]
        exact Nat.div_lt_self (by omega) (by norm_num)
      have hk2 : 2 ≤ k := by
        by_contra hc
        have hk1 : k = 1 := by omega
        subst hk1
        norm_num at hval
        omega
      have hrec : val >>> 7 < 2 ^ (7 * (k - 1)) := by
        rw [hd]
        have h1 : 7 * k = 7 * (k - 1) + 7 := by omega
        rw [h1, Nat.pow_add] at hval
        norm_num at hval
        omega
      have := ih (val >>> 7) hlt (k - 1) (by omega) hrec
      simp only [List.length_cons]
      omega

theorem write_varint_length_le (v : Nat) :
    ∀ k, 0 < k → v < 2 ^ (7 * k) → (write_varint v).length ≤ k := by
  intro k hk hv
  rw [write_varint]
  split
  · simpa using hk
  · split
    · next h1 h2 =>
      have hk2 : 2 ≤ k := by
        by_contra hc
        have hk1 : k = 1 := by omega
        subst hk1
        norm_num at hv
        omega
      simpa using hk2
    · exact write_varint_loop_length_le v k hk hv

theorem units_bytes_nil : units_bytes [] = [] := rfl

theorem units_bytes_cons (u : DeltaUnit) (us : List DeltaUnit) :
    units_bytes (u :: us) = write_delta_unit u ++ units_bytes us := by
  simp [units_bytes]

theorem write_delta_unit_length_pos (u : DeltaUnit) : 0 < (write_delta_unit u).length := by
  simp [write_delta_unit]

/-- `decode`'s loop run on a serialized instruction stream executes
exactly the serialized units: the byte-level loop agrees with the
unit-level executor. -/
theorem decode_loop_exec (base : List Nat) (us : List DeltaUnit)
    (hwf : ∀ u ∈ us, unit_wf u) (extra : List Nat) :
    ∀ d out, decode_loop base (units_bytes us ++ extra) extra.length d out =
      Except.map (fun p => p.1) (exec_units base us d out) := by
  induction us with
  | nil =>
    intro d out
    rw [decode_loop]
    simp [units_bytes, exec_units, Except.map]
  | cons u us ih =>
    intro d out
    have hu : unit_wf u := hwf u (by simp)
    have hwf' : ∀ w ∈ us, unit_wf w := fun w hw => hwf w (by simp [hw])
    have hrt : read_delta_unit (units_bytes (u :: us) ++ extra) =
        .ok (u, units_bytes us ++ extra) := by
      rw [units_bytes_cons, List.append_assoc]
      exact read_write_delta_unit u hu.1 hu.2.1 hu.2.2 _
    rw [decode_loop]
    rw [if_neg (by
      simp only [units_bytes_cons, List.append_assoc, List.length_append]
      have := write_delta_unit_length_pos u
      omega)]
    split
    · next e heq =>
      rw [heq] at hrt
      simp at hrt
    · next unit s' heq =>
      rw [heq] at hrt
      simp only [Except.ok.injEq, Prod.mk.injEq] at hrt
      obtain ⟨h1, h2⟩ := hrt
      subst h1
      subst h2
      simp only [exec_units]
      by_cases hc : unit.is_copy
      · rw [if_pos hc, if_pos hc]
        by_cases hb : unit.offset + unit.length > base.length
        · rw [if_pos hb, if_pos hb]
          simp [Except.map]
        · rw [if_neg hb, if_neg hb]
          exact ih hwf' _ _
      · rw [if_neg hc, if_neg hc]
        by_cases hb : d.length < unit.length
        · rw [if_pos hb, if_pos hb]
          simp [Except.map]
        · rw [if_neg hb, if_neg hb]
          exact ih hwf' _ _

/-- Decoding a finalized delta executes exactly the serialized units
against the literal-data stream. -/
theorem decode_finalize (base : List Nat) (us : List DeltaUnit)
    (hwf : ∀ u ∈ us, unit_wf u) (d : List Nat)
    (hinst : (units_bytes us).length < 2 ^ 64) :
    decode (finalize_delta (units_bytes us) d) base =
      Except.map (fun p => p.1) (exec_units base us d []) := by
  have hrv : read_varint (write_varint (units_bytes us).length ++ (units_bytes us ++ d)) =
      .ok ((units_bytes us).length, units_bytes us ++ d) :=
    read_write_varint _ hinst _
  simp only [decode, finalize_delta, List.append_assoc, hrv]
  have hL : (write_varint (units_bytes us).length ++ (units_bytes us ++ d)).length =
      (write_varint (units_bytes us).length).length + ((units_bytes us).length + d.length) := by
    simp
  rw [if_neg (by
    simp only [List.length_append]
    omega)]
  have hdrop : (write_varint (units_bytes us).length ++ (units_bytes us ++ d)).drop
      ((write_varint (units_bytes us).length ++ (units_bytes us ++ d)).length -
        (units_bytes us ++ d).length + (units_bytes us).length) = d := by
    have h1 : (write_varint (units_bytes us).length ++ (units_bytes us ++ d)).length -
        (units_bytes us ++ d).length + (units_bytes us).length =
        ((write_varint (units_bytes us).length ++ units_bytes us)).length := by
      simp only [List.length_append]
      omega
    rw [h1, ← List.append_assoc, List.drop_left]
  have hstop : (write_varint (units_bytes us).length ++ (units_bytes us ++ d)).length -
      ((write_varint (units_bytes us).length ++ (units_bytes us ++ d)).length -
        (units_bytes us ++ d).length + (units_bytes us).length) = d.length := by
    simp only [List.length_append]
    omega
  rw [hdrop, hstop]
  exact decode_loop_exec base us hwf d d []

/-- Parsing a serialized instruction stream recovers the units. -/
theorem parse_units_bytes (us : List DeltaUnit) (hwf : ∀ u ∈ us, unit_wf u)
    (extra : List Nat) :
    parse_units (units_bytes us ++ extra) extra.length = .ok us := by
  induction us with
  | nil =>
    rw [parse_units]
    simp [units_bytes]
  | cons u us ih =>
    have hu : unit_wf u := hwf u (by simp)
    have hwf' : ∀ w ∈ us, unit_wf w := fun w hw => hwf w (by simp [hw])
    have hrt : read_delta_unit (units_bytes (u :: us) ++ extra) =
        .ok (u, units_bytes us ++ extra) := by
      rw [units_bytes_cons, List.append_assoc]
      exact read_write_delta_unit u hu.1 hu.2.1 hu.2.2 _
    rw [parse_units]
    rw [if_neg (by
      simp only [units_bytes_cons, List.append_assoc, List.length_append]
      have := write_delta_unit_length_pos u
      omega)]
    split
    · next e heq =>
      rw [heq] at hrt
      simp at hrt
    · next unit s' heq =>
      rw [heq] at hrt
      simp only [Except.ok.injEq, Prod.mk.injEq] at hrt
      obtain ⟨h1, h2⟩ := hrt
      subst h1
      subst h2
      rw [ih hwf']

/-- The instruction stream of a finalized delta parses back to the
emitted units. -/
theorem instr_units_finalize (us : List DeltaUnit) (hwf : ∀ u ∈ us, unit_wf u)
    (d : List Nat) (hinst : (units_bytes us).length < 2 ^ 64) :
    instr_units (finalize_delta (units_bytes us) d) = .ok us := by
  have hrv : read_varint (write_varint (units_bytes us).length ++ (units_bytes us ++ d)) =
      .ok ((units_bytes us).length, units_bytes us ++ d) :=
    read_write_varint _ hinst _
  simp only [instr_units, finalize_delta, List.append_assoc, hrv]
  rw [if_neg (by
    simp only [List.length_append]
    omega)]
  have hstop : (units_bytes us ++ d).length - (units_bytes us).length = d.length := by
    simp only [List.length_append]
    omega
  rw [hstop]
  exact parse_units_bytes us hwf d

theorem count_bits_loop_eq (temp : Nat) : ∀ bits, 0 < temp →
    count_bits_loop temp bits = bits + Nat.log 2 temp + 1 := by
  induction temp using Nat.strong_induction_on with
  | _ temp ih =>
    intro bits hpos
    rw [count_bits_loop, if_pos hpos]
    have hd : temp >>> 1 = temp / 2 := by
      rw [Nat.shiftRight_eq_div_pow]
    by_cases h2 : 2 ≤ temp
    · have hlt : temp >>> 1 < temp := by
        rw [hd]
        exact Nat.div_lt_self (by omega) (by norm_num)
      have hpos' : 0 < temp >>> 1 := by
        rw [hd]
        omega
      rw [ih (temp >>> 1) hlt (bits + 1) hpos']
      rw [hd]
      have hlog : Nat.log 2 (temp / 2) = Nat.log 2 temp - 1 := Nat.log_div_base 2 temp
      have hpos_log : 0 < Nat.log 2 temp := Nat.log_pos (by norm_num) h2
      omega
    · have h1 : temp = 1 := by omega
      subst h1
      norm_num at hd
      rw [hd, count_bits_loop]
      simp [Nat.log_one_right]

/-- C4 (amended): `calculate_hash_bits` computes the binary length of
`size + 10`, i.e. `⌊log2(size + 10)⌋ + 1`, with no clamping. -/
theorem calculate_hash_bits_eq_log (size : Nat) :
    calculate_hash_bits size = Nat.log 2 (size + 10) + 1 := by
  rw [calculate_hash_bits, count_bits_loop_eq (size + 10) 0 (by omega)]
  omega

/-- C4 counterexample: at indexable-region length 6 the code chooses 5
hash bits but the spec's clamped ceiling-log formula gives 4. -/
theorem calculate_hash_bits_spec_counterexample :
    calculate_hash_bits 6 = 5 ∧ spec_hash_bits 6 = 4 ∧
      ¬calculate_hash_bits 6 = spec_hash_bits 6 := by
  have h1 : calculate_hash_bits 6 = 5 := by
    simp [calculate_hash_bits, count_bits_loop]
  have h2 : spec_hash_bits 6 = 4 := by
    rw [spec_hash_bits]
    rw [show (6 + 10 : Nat) = 2 ^ 4 by norm_num, Nat.clog_pow 2 4 (by norm_num)]
    omega
  exact ⟨h1, h2, by omega⟩

/-- C6: for every 64-bit value `v`, reading back the bytes written by
`write_varint` yields `v` and consumes exactly the written bytes (the
remaining stream is exactly the trailing bytes). -/
theorem varint_roundtrip (v : Nat) (hv : v < 2 ^ 64) (rest : List Nat) :
    read_varint (write_varint v ++ rest) = .ok (v, rest) :=
  read_write_varint v hv rest

/-- Witness for C6 at `v = 300`. -/
theorem varint_roundtrip_witness :
    (300 : Nat) < 2 ^ 64 ∧ read_varint (write_varint 300 ++ [7]) = .ok (300, [7]) :=
  ⟨by norm_num, varint_roundtrip 300 (by norm_num) [7]⟩

/-- C7: delta units built by `DeltaUnit::copy` or `DeltaUnit::literal`
with `length ∈ [1, 2^32)` and `offset ∈ [0, 2^32)` round-trip through
`write_delta_unit` / `read_delta_unit`, consuming exactly the written
bytes. -/
theorem delta_unit_roundtrip (offset length : Nat) (h1 : 1 ≤ length)
    (hl : length < 2 ^ 32) (ho : offset < 2 ^ 32) (rest : List Nat) :
    read_delta_unit (write_delta_unit (DeltaUnit.copy offset length) ++ rest) =
      .ok (DeltaUnit.copy offset length, rest) ∧
    read_delta_unit (write_delta_unit (DeltaUnit.literal length) ++ rest) =
      .ok (DeltaUnit.literal length, rest) := by
  constructor
  · exact read_write_delta_unit _ (by simpa [DeltaUnit.copy] using by omega)
      (by simpa [DeltaUnit.copy] using by omega) (by simp [DeltaUnit.copy]) rest
  · exact read_write_delta_unit _ (by simpa [DeltaUnit.literal] using by omega)
      (by simp [DeltaUnit.literal]) (by simp [DeltaUnit.literal]) rest

/-- Witness for C7 at `offset = 1000`, `length = 500`. -/
theorem delta_unit_roundtrip_witness :
    read_delta_unit (write_delta_unit (DeltaUnit.copy 1000 500) ++ [7]) =
      .ok (DeltaUnit.copy 1000 500, [7]) ∧
    read_delta_unit (write_delta_unit (DeltaUnit.literal 500) ++ [7]) =
      .ok (DeltaUnit.literal 500, [7]) :=
  delta_unit_roundtrip 1000 500 (by norm_num) (by norm_num) (by norm_num) [7]

/-- C8 counterexample: `write_varint 128` emits two bytes (not one) and
`write_varint 16384` emits three bytes (not at most two). -/
theorem write_varint_boundary_counterexample :
    (write_varint 128).length = 2 ∧ (write_varint 16384).length = 3 := by
  constructor
  · rw [write_varint]
    norm_num
  · simp [write_varint, write_varint_loop]

/-- C8 (amended): `write_varint` emits exactly one byte for values
strictly below 128 and at most two bytes for values strictly below
16384. -/
theorem write_varint_size (v : Nat) :
    (v < 128 → (write_varint v).length = 1) ∧
      (v < 16384 → (write_varint v).length ≤ 2) := by
  constructor
  · intro h
    rw [write_varint_lt128 v h]
    rfl
  · intro h
    rw [write_varint]
    split
    · simp
    · simp

/-- Witness for C8 (amended) at `v = 100` and `v = 5000`. -/
theorem write_varint_size_witness :
    (write_varint 100).length = 1 ∧ (write_varint 5000).length ≤ 2 :=
  ⟨(write_varint_size 100).1 (by norm_num), (write_varint_size 5000).2 (by norm_num)⟩


theorem c1_encode_eval : encode c1_new c1_base =
    finalize_delta (units_bytes [DeltaUnit.literal 1, DeltaUnit.copy 1 16]) [120] := by
  rfl

/-- C1: the round-trip law fails on the code.  For `base = c1_base` and
`new = c1_new` the trivial case emits the trailing copy at offset
`new_len - suffix = 1` instead of `base_len - suffix = 0`, so the copy
runs past the base and `decode` rejects the delta that `encode` just
produced, instead of returning `new`. -/
theorem c1_roundtrip_fails :
    decode (encode c1_new c1_base) c1_base =
      .error (.InvalidDelta "Copy offset 1 + length 16 exceeds base size 16") := by
  rw [c1_encode_eval]
  rw [decode_finalize c1_base [DeltaUnit.literal 1, DeltaUnit.copy 1 16]
    (by decide) [120] (by decide)]
  rfl


/-- C2: in the trivial case the trailing copy's offset is computed from
the NEW length, not the base length.  Here the common suffix is
`s = 16`, `new_len = 17`, `base_len = 16`: the emitted trailing copy
has offset `new_len - s = 1`, while the claim requires
`base_len - s = 0`. -/
theorem c2_trailing_copy_offset :
    instr_units (encode c2_new c2_base) =
      .ok [DeltaUnit.literal 1, DeltaUnit.copy 1 16] ∧
    c2_new.length - 16 = 1 ∧ c2_base.length - 16 = 0 ∧ (1 : Nat) ≠ 0 := by
  refine ⟨?_, by decide, by decide, by decide⟩
  have h1 : encode c2_new c2_base =
      finalize_delta (units_bytes [DeltaUnit.literal 1, DeltaUnit.copy 1 16]) [121] := by
    rfl
  rw [h1]
  exact instr_units_finalize _ (by decide) _ (by decide)


/-- C3: the emitted instruction stream for `(c3_new, c3_base)` contains
a copy unit with `offset + length = 17 > 16 = base_length`, refuting
the bounds invariant for `encode`'s output. -/
theorem c3_copy_out_of_bounds :
    has_bad_copy (encode c3_new c3_base) c3_base = true := by
  have h1 : encode c3_new c3_base =
      finalize_delta (units_bytes [DeltaUnit.literal 1, DeltaUnit.copy 1 16]) [200] := by
    rfl
  rw [has_bad_copy, h1]
  rw [instr_units_finalize _ (by decide) _ (by decide)]
  rfl


/-- C5 counterexample: this delta's instruction stream contains a copy
with `offset + length > |base|`, yet `decode` returns
`UnexpectedEndOfData` (from the preceding literal), not
`InvalidDelta`. -/
theorem c5_bad_copy_other_error :
    has_bad_copy c5_delta c5_base = true ∧
    decode c5_delta c5_base = .error .UnexpectedEndOfData := by
  have h1 : c5_delta =
      finalize_delta (units_bytes [DeltaUnit.literal 5, DeltaUnit.copy 2 2]) [] := by
    rfl
  constructor
  · rw [has_bad_copy, h1, instr_units_finalize _ (by decide) _ (by decide)]
    rfl
  · rw [h1, decode_finalize _ _ (by decide) _ (by decide)]
    rfl

theorem decode_loop_err_of_bad_copy (base : List Nat) :
    ∀ (n : Nat) (s : List Nat) (stop : Nat) (us : List DeltaUnit), s.length ≤ n →
    parse_units s stop = .ok us →
    (∃ u ∈ us, is_bad_copy base.length u = true) →
    ∀ d out, ∃ e, decode_loop base s stop d out = .error e := by
  intro n
  induction n with
  | zero =>
    intro s stop us hn hp hbad d out
    rw [parse_units] at hp
    rw [if_pos (by omega)] at hp
    simp only [Except.ok.injEq] at hp
    subst hp
    obtain ⟨u, hu, -⟩ := hbad
    simp at hu
  | succ n ih =>
    intro s stop us hn hp hbad d out
    rw [parse_units] at hp
    rw [decode_loop]
    by_cases hstop : s.length ≤ stop
    · rw [if_pos hstop] at hp
      simp only [Except.ok.injEq] at hp
      subst hp
      obtain ⟨u, hu, -⟩ := hbad
      simp at hu
    · rw [if_neg hstop] at hp
      rw [if_neg hstop]
      split at hp
      · next e heq => simp at hp
      · next unit s' heq =>
        have hs' : s'.length ≤ n := by
          have := read_delta_unit_rest_lt heq
          omega
        revert hp
        cases hps : parse_units s' stop with
        | error e => intro hp; simp at hp
        | ok us' =>
          intro hp
          simp only [Except.ok.injEq] at hp
          subst hp
          split
          · next hcopy =>
            by_cases hb : unit.offset + unit.length > base.length
            · rw [if_pos hb]
              exact ⟨_, rfl⟩
            · rw [if_neg hb]
              have hbad' : ∃ u ∈ us', is_bad_copy base.length u = true := by
                obtain ⟨u, hu, hbu⟩ := hbad
                rcases List.mem_cons.mp hu with h | h
                · subst h
                  rw [is_bad_copy] at hbu
                  simp at hbu
                  omega
                · exact ⟨u, h, hbu⟩
              exact ih s' stop us' hs' hps hbad' _ _
          · next hcopy =>
            by_cases hd : d.length < unit.length
            · rw [if_pos hd]
              exact ⟨_, rfl⟩
            · rw [if_neg hd]
              have hbad' : ∃ u ∈ us', is_bad_copy base.length u = true := by
                obtain ⟨u, hu, hbu⟩ := hbad
                rcases List.mem_cons.mp hu with h | h
                · subst h
                  rw [is_bad_copy] at hbu
                  simp [hcopy] at hbu
                · exact ⟨u, h, hbu⟩
              exact ih s' stop us' hs' hps hbad' _ _

/-- C5 (amended): a delta whose instruction stream contains a copy unit
with `offset + length > base_length` is never decoded successfully:
`decode` returns an error — `InvalidDelta` when the offending copy is
the first failing instruction, but possibly an earlier instruction's
error (e.g. `UnexpectedEndOfData` from a literal). -/
theorem bad_copy_decode_errors (delta base : List Nat)
    (h : has_bad_copy delta base = true) : ∃ e, decode delta base = .error e := by
  rw [has_bad_copy, instr_units] at h
  rw [decode]
  cases hrv : read_varint delta with
  | error e =>
    rw [hrv] at h
    simp at h
  | ok p =>
    obtain ⟨instruction_len, rest⟩ := p
    rw [hrv] at h
    simp only at h ⊢
    have hrest : rest.length < delta.length := read_varint_rest_lt hrv
    by_cases hc : instruction_len > rest.length
    · rw [if_pos hc] at h
      simp at h
    · rw [if_neg hc] at h
      revert h
      cases hpu : parse_units rest (rest.length - instruction_len) with
      | error e => intro h; simp at h
      | ok us =>
        intro h
        simp only [List.any_eq_true] at h
        push_neg at hc
        rw [if_neg (by omega :
          ¬(delta.length - rest.length + instruction_len > delta.length))]
        have hstop : delta.length - (delta.length - rest.length + instruction_len) =
            rest.length - instruction_len := by omega
        rw [hstop]
        exact decode_loop_err_of_bad_copy base rest.length rest
          (rest.length - instruction_len) us (Nat.le_refl _) hpu h _ _


/-- Witness for C5 (amended): on a delta whose only unit is an
out-of-bounds copy, decode indeed errors. -/
theorem bad_copy_decode_errors_witness :
    has_bad_copy c5w_delta [] = true ∧ ∃ e, decode c5w_delta [] = .error e := by
  have hbad : has_bad_copy c5w_delta [] = true := by
    have h1 : c5w_delta = finalize_delta (units_bytes [DeltaUnit.copy 0 1]) [] := by
      rfl
    rw [has_bad_copy, h1, instr_units_finalize _ (by decide) _ (by decide)]
    rfl
  exact ⟨hbad, bad_copy_decode_errors c5w_delta [] hbad⟩

theorem decode_loop_append (base : List Nat) :
    ∀ (n : Nat) (s : List Nat) (stop : Nat) (d out r : List Nat) (extra extra2 : List Nat),
    s.length ≤ n →
    decode_loop base s stop d out = .ok r →
    decode_loop base (s ++ extra) (stop + extra.length) (d ++ extra2) out = .ok r := by
  intro n
  induction n with
  | zero =>
    intro s stop d out r extra extra2 hn h
    rw [decode_loop] at h
    rw [decode_loop]
    rw [if_pos (by omega)] at h
    rw [if_pos (by simp only [List.length_append]; omega)]
    exact h
  | succ n ih =>
    intro s stop d out r extra extra2 hn h
    rw [decode_loop] at h
    rw [decode_loop]
    by_cases hstop : s.length ≤ stop
    · rw [if_pos hstop] at h
      rw [if_pos (by simp only [List.length_append]; omega)]
      exact h
    · rw [if_neg hstop] at h
      rw [if_neg (by simp only [List.length_append]; omega)]
      split at h
      · next e heq => simp at h
      · next unit s' heq =>
        have hext : read_delta_unit (s ++ extra) = .ok (unit, s' ++ extra) :=
          read_delta_unit_append extra heq
        have hs' : s'.length ≤ n := by
          have := read_delta_unit_rest_lt heq
          omega
        split
        · next e heq2 =>
          rw [heq2] at hext
          simp at hext
        · next unit2 s2 heq2 =>
          rw [heq2] at hext
          simp only [Except.ok.injEq, Prod.mk.injEq] at hext
          obtain ⟨h1, h2⟩ := hext
          subst h1
          subst h2
          by_cases hcopy : unit2.is_copy
          · rw [if_pos hcopy] at h ⊢
            by_cases hb : unit2.offset + unit2.length > base.length
            · rw [if_pos hb] at h
              simp at h
            · rw [if_neg hb] at h ⊢
              exact ih s' stop d (out ++ slice base unit2.offset (unit2.offset + unit2.length))
                r extra extra2 hs' h
          · rw [if_neg hcopy] at h ⊢
            by_cases hd : d.length < unit2.length
            · rw [if_pos hd] at h
              simp at h
            · rw [if_neg hd] at h
              rw [if_neg (by simp only [List.length_append]; omega :
                ¬(d ++ extra2).length < unit2.length)]
              rw [List.take_append_of_le_length (by omega),
                List.drop_append_of_le_length (by omega)]
              exact ih s' stop (d.drop unit2.length) (out ++ d.take unit2.length)
                r extra extra2 hs' h

/-- C10: the decoder is lenient about trailing bytes — appending any
extra bytes after an accepted delta leaves decoding unchanged, because
the loop stops at the instruction-stream end and never checks that the
literal-data stream is fully consumed. -/
theorem decode_trailing_lenient (delta base extra out : List Nat)
    (h : decode delta base = .ok out) :
    decode (delta ++ extra) base = .ok out := by
  rw [decode] at h ⊢
  cases hrv : read_varint delta with
  | error e =>
    rw [hrv] at h
    simp at h
  | ok p =>
    obtain ⟨instruction_len, rest⟩ := p
    rw [hrv] at h
    simp only at h
    rw [read_varint_append extra hrv]
    simp only
    have hrest : rest.length < delta.length := read_varint_rest_lt hrv
    by_cases hc : delta.length - rest.length + instruction_len > delta.length
    · rw [if_pos hc] at h
      simp at h
    · rw [if_neg hc] at h
      have hc2 : ¬((delta ++ extra).length - (rest ++ extra).length + instruction_len >
          (delta ++ extra).length) := by
        simp only [List.length_append]
        omega
      rw [if_neg hc2]
      have hstart : (delta ++ extra).length - (rest ++ extra).length =
          delta.length - rest.length := by
        simp only [List.length_append]
        omega
      rw [hstart]
      have hstop : (delta ++ extra).length - (delta.length - rest.length + instruction_len) =
          delta.length - (delta.length - rest.length + instruction_len) + extra.length := by
        simp only [List.length_append]
        omega
      rw [hstop]
      have hdrop : (delta ++ extra).drop (delta.length - rest.length + instruction_len) =
          delta.drop (delta.length - rest.length + instruction_len) ++ extra :=
        List.drop_append_of_le_length (by omega)
      rw [hdrop]
      exact decode_loop_append base rest.length rest
        (delta.length - (delta.length - rest.length + instruction_len))
        (delta.drop (delta.length - rest.length + instruction_len)) [] out extra extra
        (Nat.le_refl _) h

/-- Witness for C10: the empty delta against the empty base decodes to
the empty blob, with and without trailing junk. -/
theorem decode_trailing_lenient_witness :
    decode [0] [] = .ok [] ∧ decode ([0] ++ [9, 9, 9]) [] = .ok [] := by
  have h : decode [0] [] = .ok ([] : List Nat) := by
    have h1 : ([0] : List Nat) = finalize_delta (units_bytes []) [] := rfl
    rw [h1, decode_finalize _ _ (by simp) _ (by decide)]
    rfl
  exact ⟨h, decode_trailing_lenient [0] [] [9, 9, 9] [] h⟩

theorem slice_getElem? (l : List Nat) (i j k : Nat) (hk : k < j - i) :
    (slice l i j)[k]? = l[i + k]? := by
  rw [slice, List.getElem?_take_of_lt hk, List.getElem?_drop]

theorem slice_length_of_le {l : List Nat} {i j : Nat} (hij : i ≤ j) (hj : j ≤ l.length) :
    (slice l i j).length = j - i := by
  simp only [slice, List.length_take, List.length_drop]
  omega

theorem slice_length_le (l : List Nat) (i j : Nat) : (slice l i j).length ≤ j - i := by
  simp only [slice]
  exact List.length_take_le _ _

theorem slice_append {l : List Nat} {i j k : Nat} (hij : i ≤ j) (hjk : j ≤ k) :
    slice l i j ++ slice l j k = slice l i k := by
  simp only [slice]
  have h1 : k - i = (j - i) + (k - j) := by omega
  rw [h1, List.take_add, List.drop_drop]
  have h2 : i + (j - i) = j := by omega
  rw [h2]

theorem slice_self_nil (l : List Nat) (i : Nat) : slice l i i = [] := by
  simp [slice]

theorem slice_full (l : List Nat) : slice l 0 l.length = l := by
  simp [slice]

theorem byteAt_eq_getElem? (l : List Nat) (i : Nat) : byteAt l i = (l[i]?).getD 0 := by
  simp [byteAt]

theorem pointwise_of_slice_eq {a b : List Nat} {pos cand n : Nat}
    (h : slice a pos (pos + n) = slice b cand (cand + n)) :
    ∀ i < n, byteAt a (pos + i) = byteAt b (cand + i) := by
  intro i hi
  rw [byteAt_eq_getElem?, byteAt_eq_getElem?]
  rw [← slice_getElem? a pos (pos + n) i (by omega),
    ← slice_getElem? b cand (cand + n) i (by omega), h]

theorem slice_eq_of_pointwise {a b : List Nat} {pos cand n : Nat}
    (ha : pos + n ≤ a.length) (hb : cand + n ≤ b.length)
    (h : ∀ i < n, byteAt a (pos + i) = byteAt b (cand + i)) :
    slice a pos (pos + n) = slice b cand (cand + n) := by
  apply List.ext_getElem?
  intro k
  by_cases hk : k < n
  · rw [slice_getElem? a pos (pos + n) k (by omega),
      slice_getElem? b cand (cand + n) k (by omega),
      List.getElem?_eq_getElem (show pos + k < a.length by omega),
      List.getElem?_eq_getElem (show cand + k < b.length by omega)]
    have h1 := h k hk
    rw [byteAt_eq_getElem?, byteAt_eq_getElem?,
      List.getElem?_eq_getElem (show pos + k < a.length by omega),
      List.getElem?_eq_getElem (show cand + k < b.length by omega)] at h1
    simp only [Option.getD_some] at h1
    rw [h1]
  · rw [List.getElem?_eq_none, List.getElem?_eq_none]
    · rw [slice_length_of_le (by omega) hb]
      omega
    · rw [slice_length_of_le (by omega) ha]
      omega

theorem extend_loop_le_new (new_data base_data : List Nat)
    (new_pos base_pos new_end base_end len : Nat) (h : new_pos + len ≤ new_end) :
    new_pos + extend_loop new_data base_data new_pos base_pos new_end base_end len ≤
      new_end := by
  rw [extend_loop]
  split
  · next hc =>
    exact extend_loop_le_new new_data base_data new_pos base_pos new_end base_end (len + 1)
      (by omega)
  · omega
termination_by new_end - (new_pos + len)
decreasing_by omega

theorem extend_loop_le_base (new_data base_data : List Nat)
    (new_pos base_pos new_end base_end len : Nat) (h : base_pos + len ≤ base_end) :
    base_pos + extend_loop new_data base_data new_pos base_pos new_end base_end len ≤
      base_end := by
  rw [extend_loop]
  split
  · next hc =>
    exact extend_loop_le_base new_data base_data new_pos base_pos new_end base_end (len + 1)
      (by omega)
  · omega
termination_by new_end - (new_pos + len)
decreasing_by
  next hc => omega

theorem extend_loop_pointwise (new_data base_data : List Nat)
    (new_pos base_pos new_end base_end len : Nat)
    (h : ∀ i < len, byteAt new_data (new_pos + i) = byteAt base_data (base_pos + i)) :
    ∀ i < extend_loop new_data base_data new_pos base_pos new_end base_end len,
      byteAt new_data (new_pos + i) = byteAt base_data (base_pos + i) := by
  rw [extend_loop]
  split
  · next hc =>
    exact extend_loop_pointwise new_data base_data new_pos base_pos new_end base_end (len + 1)
      (by
        intro i hi
        rcases Nat.lt_or_ge i len with h1 | h1
        · exact h i h1
        · have h2 : i = len := by omega
          subst h2
          exact hc.2.2)
  · exact fun i hi => h i hi
termination_by new_end - (new_pos + len)
decreasing_by
  next hc => omega

theorem exec_units_nil (base d out : List Nat) :
    exec_units base [] d out = .ok (out, d) := rfl

theorem exec_literal_step (base a : List Nat) {i j : Nat} (hij : i ≤ j)
    (hj : j ≤ a.length) (us : List DeltaUnit) (rest2 out : List Nat) :
    exec_units base (DeltaUnit.literal (j - i) :: us) (slice a i j ++ rest2) out =
      exec_units base us rest2 (out ++ slice a i j) := by
  have hlen : (slice a i j).length = j - i := slice_length_of_le hij hj
  simp only [exec_units, DeltaUnit.literal]
  rw [if_neg (by simp)]
  rw [if_neg (by simp only [List.length_append]; omega)]
  rw [List.take_left' hlen, List.drop_left' hlen]

theorem exec_copy_step (base : List Nat) {off m : Nat} (h : off + m ≤ base.length)
    (us : List DeltaUnit) (d out : List Nat) :
    exec_units base (DeltaUnit.copy off m :: us) d out =
      exec_units base us d (out ++ slice base off (off + m)) := by
  simp only [exec_units, DeltaUnit.copy]
  rw [if_pos trivial]
  rw [if_neg (by omega)]


/-- Terminal step of the middle-scan loop: when fewer than `WORD_SIZE`
bytes remain, the pending literal (if any) is flushed and executing it
reproduces `new_data[lit_start .. end_)`. -/
theorem encode_middle_loop_term_exec (new_data base_data : List Nat)
    (end_ base_end : Nat) (table : List Nat) (shift : Nat) (hne : end_ ≤ new_data.length)
    (pos lit_start fp : Nat) (hterm : ¬(pos + WORD_SIZE ≤ end_)) (hls : lit_start ≤ end_)
    (dExtra out : List Nat) :
    exec_units base_data
      (encode_middle_loop new_data base_data end_ base_end table shift pos lit_start fp).1
      ((encode_middle_loop new_data base_data end_ base_end table shift pos lit_start fp).2
        ++ dExtra) out =
      .ok (out ++ slice new_data lit_start end_, dExtra) := by
  rw [encode_middle_loop, dif_neg hterm]
  by_cases hlt : lit_start < end_
  · rw [if_pos hlt]
    simp only
    rw [exec_literal_step base_data new_data (by omega) hne [] dExtra out]
    rw [exec_units_nil]
  · rw [if_neg hlt]
    simp only
    rw [List.nil_append, exec_units_nil]
    have hle : lit_start = end_ := by omega
    rw [hle, slice_self_nil, List.append_nil]

/-- Main correctness of the middle-scan loop: executing the emitted
units against the emitted literal data reproduces exactly
`new_data[lit_start .. end_)`, for any hash table and fingerprints
(every candidate match is verified byte-for-byte before being used). -/
theorem encode_middle_loop_exec (new_data base_data : List Nat) (end_ base_end : Nat)
    (table : List Nat) (shift : Nat) (hne : end_ ≤ new_data.length)
    (hbe : base_end ≤ base_data.length) :
    ∀ (n pos lit_start fp : Nat), end_ - pos ≤ n → lit_start ≤ pos → pos ≤ end_ →
    ∀ (dExtra out : List Nat),
      exec_units base_data
        (encode_middle_loop new_data base_data end_ base_end table shift pos lit_start fp).1
        ((encode_middle_loop new_data base_data end_ base_end table shift pos lit_start fp).2
          ++ dExtra) out =
      .ok (out ++ slice new_data lit_start end_, dExtra) := by
  intro n
  induction n with
  | zero =>
    intro pos lit_start fp hn hls hpe dExtra out
    exact encode_middle_loop_term_exec new_data base_data end_ base_end table shift hne
      pos lit_start fp (by simp only [WORD_SIZE]; omega) (by omega) dExtra out
  | succ n ih =>
    intro pos lit_start fp hn hls hpe dExtra out
    by_cases hcond : pos + WORD_SIZE ≤ end_
    · rw [encode_middle_loop, dif_pos hcond]
      have hcond8 : pos + 8 ≤ end_ := by simpa only [WORD_SIZE] using hcond
      by_cases hm : byteAt table (fp >>> shift) > 0 ∧
          byteAt table (fp >>> shift) + WORD_SIZE ≤ base_end ∧
          slice new_data pos (pos + WORD_SIZE) =
            slice base_data (byteAt table (fp >>> shift))
              (byteAt table (fp >>> shift) + WORD_SIZE)
      · rw [dif_pos hm]
        obtain ⟨hm1, hm2, hm3⟩ := hm
        simp only [WORD_SIZE] at hm2 hm3
        have hge : (8 : Nat) ≤ extend_match new_data base_data pos
            (byteAt table (fp >>> shift)) end_ base_end :=
          extend_loop_ge _ _ _ _ _ _ 8
        have hlene : pos + extend_match new_data base_data pos
            (byteAt table (fp >>> shift)) end_ base_end ≤ end_ :=
          extend_loop_le_new new_data base_data pos
            (byteAt table (fp >>> shift)) end_ base_end 8 (by omega)
        have hlenb : byteAt table (fp >>> shift) + extend_match new_data base_data pos
            (byteAt table (fp >>> shift)) end_ base_end ≤ base_end :=
          extend_loop_le_base new_data base_data pos
            (byteAt table (fp >>> shift)) end_ base_end 8 (by omega)
        have hpw : ∀ i < extend_match new_data base_data pos
            (byteAt table (fp >>> shift)) end_ base_end,
            byteAt new_data (pos + i) = byteAt base_data (byteAt table (fp >>> shift) + i) := by
          apply extend_loop_pointwise
          intro i hi
          exact pointwise_of_slice_eq hm3 i hi
        have hsl : slice base_data (byteAt table (fp >>> shift))
            (byteAt table (fp >>> shift) + extend_match new_data base_data pos
              (byteAt table (fp >>> shift)) end_ base_end) =
            slice new_data pos (pos + extend_match new_data base_data pos
              (byteAt table (fp >>> shift)) end_ base_end) :=
          (slice_eq_of_pointwise (by omega) (by omega) hpw).symm
        rw [encode_middle_emit]
        by_cases hpl : pos > lit_start
        · rw [if_pos hpl, if_pos hpl]
          rw [List.singleton_append, List.append_assoc]
          rw [exec_literal_step base_data new_data (by omega) (by omega) _ _ out]
          rw [exec_copy_step base_data (by omega) _ _ _]
          rw [hsl]
          rw [ih _ _ _ (by omega) (Nat.le_refl _) (by omega) dExtra _]
          rw [List.append_assoc, List.append_assoc]
          rw [slice_append (show pos ≤ pos + extend_match new_data base_data pos
            (byteAt table (fp >>> shift)) end_ base_end by omega) (by omega)]
          rw [slice_append (show lit_start ≤ pos by omega) (by omega)]
        · rw [if_neg hpl, if_neg hpl]
          rw [List.nil_append, List.nil_append]
          rw [exec_copy_step base_data (by omega) _ _ _]
          rw [hsl]
          rw [ih _ _ _ (by omega) (Nat.le_refl _) (by omega) dExtra _]
          have hle : lit_start = pos := by omega
          subst hle
          rw [List.append_assoc]
          rw [slice_append (show lit_start ≤ lit_start + extend_match new_data base_data
            lit_start (byteAt table (fp >>> shift)) end_ base_end by omega) (by omega)]
      · rw [dif_neg hm]
        exact ih _ _ _ (by omega) (by omega) (by omega) dExtra out
    · exact encode_middle_loop_term_exec new_data base_data end_ base_end table shift hne
        pos lit_start fp hcond (by omega) dExtra out

theorem wdu_literal_small {len : Nat} (h : len < 64) :
    write_delta_unit (DeltaUnit.literal len) = [len] := by
  have hd : len >>> 6 = len / 64 := by rw [Nat.shiftRight_eq_div_pow]
  have hm0 : len >>> 6 = 0 := by omega
  have hx : len &&& 63 = len := by
    rw [and_mask63]
    omega
  simp [write_delta_unit, DeltaUnit.literal, hm0, hx]

theorem wdu_copy_small {off len : Nat} (hL : len < 64) (hoff : off < 128) :
    write_delta_unit (DeltaUnit.copy off len) = [128 ||| len, off] := by
  have hd : len >>> 6 = len / 64 := by rw [Nat.shiftRight_eq_div_pow]
  have hm0 : len >>> 6 = 0 := by omega
  have hx : len &&& 63 = len := by
    rw [and_mask63]
    omega
  simp [write_delta_unit, DeltaUnit.copy, hm0, hx, write_varint_lt128 off hoff]

theorem wdu_copy0_length_le {len : Nat} (h : len < 2 ^ 64) :
    (write_delta_unit (DeltaUnit.copy 0 len)).length ≤ 11 := by
  have hb : (write_varint (len >>> 6)).length ≤ 9 := by
    apply write_varint_length_le _ 9 (by norm_num)
    rw [Nat.shiftRight_eq_div_pow]
    norm_num
    omega
  by_cases hr : len >>> 6 > 0
  · simp only [write_delta_unit, DeltaUnit.copy, if_pos hr, if_pos trivial,
      List.length_append, List.length_cons, List.length_nil,
      write_varint_lt128 0 (by norm_num)]
    omega
  · simp only [write_delta_unit, DeltaUnit.copy, if_neg hr, if_pos trivial,
      List.length_append, List.length_cons, List.length_nil,
      write_varint_lt128 0 (by norm_num)]
    omega

theorem units_bytes_append (a b : List DeltaUnit) :
    units_bytes (a ++ b) = units_bytes a ++ units_bytes b := by
  simp [units_bytes]

theorem units_bytes_singleton (u : DeltaUnit) : units_bytes [u] = write_delta_unit u := by
  simp [units_bytes]

/-- Terminal step of the middle-scan loop: output size and unit
well-formedness. -/
theorem encode_middle_loop_term_small (new_data base_data : List Nat)
    (end_ base_end : Nat) (table : List Nat) (shift : Nat) (h15 : end_ ≤ 15)
    (pos lit_start fp : Nat) (hterm : ¬(pos + WORD_SIZE ≤ end_)) :
    (units_bytes (encode_middle_loop new_data base_data end_ base_end table shift
      pos lit_start fp).1).length ≤ 1 ∧
    (encode_middle_loop new_data base_data end_ base_end table shift pos lit_start fp).2.length
      ≤ end_ - lit_start ∧
    ∀ u ∈ (encode_middle_loop new_data base_data end_ base_end table shift pos lit_start fp).1,
      unit_wf u := by
  rw [encode_middle_loop, dif_neg hterm]
  by_cases hlt : lit_start < end_
  · rw [if_pos hlt]
    refine ⟨?_, ?_, ?_⟩
    · rw [units_bytes_singleton, wdu_literal_small (by omega)]
      simp
    · exact slice_length_le _ _ _
    · intro u hu
      simp only [List.mem_singleton] at hu
      subst hu
      exact ⟨by simp [DeltaUnit.literal]; omega, by simp [DeltaUnit.literal],
        fun _ => by simp [DeltaUnit.literal]⟩
  · rw [if_neg hlt]
    refine ⟨by simp [units_bytes], by simp, by simp⟩

/-- For a middle region of at most 15 bytes the scan emits at most 4
bytes of instructions and at most `end_ - lit_start` literal bytes, and
every emitted unit is well-formed. -/
theorem encode_middle_loop_small (new_data base_data : List Nat) (end_ base_end : Nat)
    (table : List Nat) (shift : Nat) (h15 : end_ ≤ 15) (hb15 : base_end ≤ 15) :
    ∀ (n pos lit_start fp : Nat), end_ - pos ≤ n → lit_start ≤ pos →
    (units_bytes (encode_middle_loop new_data base_data end_ base_end table shift
      pos lit_start fp).1).length ≤ 4 ∧
    (encode_middle_loop new_data base_data end_ base_end table shift pos lit_start fp).2.length
      ≤ end_ - lit_start ∧
    ∀ u ∈ (encode_middle_loop new_data base_data end_ base_end table shift pos lit_start fp).1,
      unit_wf u := by
  intro n
  induction n with
  | zero =>
    intro pos lit_start fp hn hls
    have h := encode_middle_loop_term_small new_data base_data end_ base_end table shift h15
      pos lit_start fp (by simp only [WORD_SIZE]; omega)
    exact ⟨by omega, h.2.1, h.2.2⟩
  | succ n ih =>
    intro pos lit_start fp hn hls
    by_cases hcond : pos + WORD_SIZE ≤ end_
    · rw [encode_middle_loop, dif_pos hcond]
      have hcond8 : pos + 8 ≤ end_ := by simpa only [WORD_SIZE] using hcond
      by_cases hm : byteAt table (fp >>> shift) > 0 ∧
          byteAt table (fp >>> shift) + WORD_SIZE ≤ base_end ∧
          slice new_data pos (pos + WORD_SIZE) =
            slice base_data (byteAt table (fp >>> shift))
              (byteAt table (fp >>> shift) + WORD_SIZE)
      · rw [dif_pos hm]
        obtain ⟨hm1, hm2, -⟩ := hm
        simp only [WORD_SIZE] at hm2
        have hge : (8 : Nat) ≤ extend_match new_data base_data pos
            (byteAt table (fp >>> shift)) end_ base_end :=
          extend_loop_ge _ _ _ _ _ _ 8
        have hlene : pos + extend_match new_data base_data pos
            (byteAt table (fp >>> shift)) end_ base_end ≤ end_ :=
          extend_loop_le_new new_data base_data pos
            (byteAt table (fp >>> shift)) end_ base_end 8 (by omega)
        have hrest := encode_middle_loop_term_small new_data base_data end_ base_end table
          shift h15
          (pos + extend_match new_data base_data pos (byteAt table (fp >>> shift)) end_ base_end)
          (pos + extend_match new_data base_data pos (byteAt table (fp >>> shift)) end_ base_end)
          (if pos + extend_match new_data base_data pos (byteAt table (fp >>> shift))
              end_ base_end + WORD_SIZE ≤ end_ then
            compute_fingerprint new_data
              (pos + extend_match new_data base_data pos (byteAt table (fp >>> shift))
                end_ base_end)
          else fp)
          (by simp only [WORD_SIZE]; omega)
        rw [encode_middle_emit]
        refine ⟨?_, ?_, ?_⟩
        · simp only [units_bytes_append, units_bytes_cons, List.length_append]
          have hcopy2 : (write_delta_unit (DeltaUnit.copy (byteAt table (fp >>> shift))
              (extend_match new_data base_data pos (byteAt table (fp >>> shift))
                end_ base_end))).length = 2 := by
            rw [wdu_copy_small (by omega) (by omega)]
            rfl
          have hlit1 : (units_bytes (if pos > lit_start
              then [DeltaUnit.literal (pos - lit_start)] else [])).length ≤ 1 := by
            by_cases hpl : pos > lit_start
            · rw [if_pos hpl, units_bytes_singleton, wdu_literal_small (by omega)]
              simp
            · rw [if_neg hpl]
              simp [units_bytes]
          have hr1 := hrest.1
          omega
        · simp only [List.length_append]
          have hlit2 : (if pos > lit_start then slice new_data lit_start pos else []).length ≤
              pos - lit_start := by
            by_cases hpl : pos > lit_start
            · rw [if_pos hpl]
              exact slice_length_le _ _ _
            · rw [if_neg hpl]
              simp
          have := hrest.2.1
          omega
        · intro u hu
          simp only [List.mem_append, List.mem_cons] at hu
          rcases hu with hu | hu | hu
          · have : u = DeltaUnit.literal (pos - lit_start) := by
              by_cases hpl : pos > lit_start
              · rw [if_pos hpl] at hu
                simpa using hu
              · rw [if_neg hpl] at hu
                simp at hu
            subst this
            exact ⟨by simp [DeltaUnit.literal]; omega, by simp [DeltaUnit.literal],
              fun _ => by simp [DeltaUnit.literal]⟩
          · subst hu
            refine ⟨by simp [DeltaUnit.copy]; omega, by simp [DeltaUnit.copy]; omega,
              fun hc => ?_⟩
            simp [DeltaUnit.copy] at hc
          · exact hrest.2.2 u hu
      · rw [dif_neg hm]
        exact ih _ _ _ (by omega) (by omega)
    · have h := encode_middle_loop_term_small new_data base_data end_ base_end table shift h15
        pos lit_start fp hcond
      exact ⟨by omega, h.2.1, h.2.2⟩

theorem find_common_prefix_len_self (l : List Nat) : find_common_prefix_len l l = l.length := by
  induction l with
  | nil => rfl
  | cons x xs ih => simp [find_common_prefix_len, ih]

theorem encode_trivial_self_big (l : List Nat) (h16 : 16 ≤ l.length) :
    encode_trivial_case l l.length 0 = ([DeltaUnit.copy 0 l.length], []) := by
  rw [encode_trivial_case]
  simp [Nat.sub_self, show 0 < l.length by omega]

theorem encode_self_big (l : List Nat) (h16 : 16 ≤ l.length) :
    encode l l = finalize_delta (units_bytes [DeltaUnit.copy 0 l.length]) [] := by
  rw [encode]
  simp only [find_common_prefix_len_self, find_common_suffix_len, List.length_reverse,
    MIN_MATCH_LENGTH]
  rw [if_pos h16]
  simp only [Nat.sub_self, Nat.min_self, Nat.min_zero]
  norm_num
  rw [encode_trivial_self_big l h16]

theorem encode_self_small (l : List Nat) (h1 : 1 ≤ l.length) (h15 : l.length ≤ 15) :
    encode l l = finalize_delta
      (units_bytes (encode_middle_section l l 0 l.length l.length
        (build_hash_table l 0 l.length (calculate_hash_bits l.length))
        (64 - calculate_hash_bits l.length)).1)
      (encode_middle_section l l 0 l.length l.length
        (build_hash_table l 0 l.length (calculate_hash_bits l.length))
        (64 - calculate_hash_bits l.length)).2 := by
  rw [encode]
  simp only [find_common_prefix_len_self, find_common_suffix_len, List.length_reverse,
    MIN_MATCH_LENGTH]
  rw [if_neg (by omega : ¬16 ≤ l.length)]
  simp only [Nat.min_self, Nat.sub_zero, Nat.zero_add]
  rw [if_neg (by omega : ¬16 ≤ l.length)]
  rw [if_neg (by omega : ¬0 + 0 > l.length)]
  rw [if_neg (by omega : ¬0 + 0 ≥ l.length)]
  norm_num
  rw [if_neg (by omega : ¬16 ≤ l.length), List.nil_append]

theorem decode_middle_self (l : List Nat) (h1 : 1 ≤ l.length) (h15 : l.length ≤ 15)
    (table : List Nat) (shift : Nat) :
    decode (finalize_delta
      (units_bytes (encode_middle_section l l 0 l.length l.length table shift).1)
      (encode_middle_section l l 0 l.length l.length table shift).2) l = .ok l ∧
    (finalize_delta
      (units_bytes (encode_middle_section l l 0 l.length l.length table shift).1)
      (encode_middle_section l l 0 l.length l.length table shift).2).length ≤ 20 := by
  by_cases h8 : l.length < 8
  · have hsec : encode_middle_section l l 0 l.length l.length table shift =
        ([DeltaUnit.literal l.length], l) := by
      rw [encode_middle_section]
      rw [if_pos (by simp only [WORD_SIZE]; omega :
        0 ≥ l.length ∨ l.length - 0 < WORD_SIZE)]
      rw [if_pos (by omega : (0 : Nat) < l.length)]
      rw [Nat.sub_zero]
      have : slice l 0 l.length = l := slice_full l
      rw [this]
    rw [hsec]
    constructor
    · rw [decode_finalize l [DeltaUnit.literal l.length]
        (by
          intro u hu
          simp only [List.mem_singleton] at hu
          subst hu
          exact ⟨by simp [DeltaUnit.literal]; omega, by simp [DeltaUnit.literal],
            fun _ => by simp [DeltaUnit.literal]⟩) l
        (by rw [units_bytes_singleton, wdu_literal_small (by omega)]; simp)]
      simp only [exec_units, DeltaUnit.literal]
      rw [if_neg (by simp)]
      rw [if_neg (by omega : ¬l.length < l.length)]
      rw [List.take_length, List.drop_length]
      simp [Except.map]
    · rw [units_bytes_singleton, wdu_literal_small (by omega), finalize_delta]
      rw [write_varint_lt128 _ (by simp)]
      simp only [List.length_append, List.length_cons, List.length_nil]
      omega
  · have hsec : ¬(0 ≥ l.length ∨ l.length - 0 < WORD_SIZE) := by
      simp only [WORD_SIZE]
      omega
    rw [encode_middle_section, if_neg hsec]
    have hexec := encode_middle_loop_exec l l l.length l.length table shift
      (Nat.le_refl _) (Nat.le_refl _) l.length 0 0 (compute_fingerprint l 0)
      (by omega) (Nat.le_refl 0) (by omega) [] []
    have hsmall := encode_middle_loop_small l l l.length l.length table shift h15 h15
      l.length 0 0 (compute_fingerprint l 0) (by omega) (Nat.le_refl 0)
    rw [List.append_nil] at hexec
    constructor
    · rw [decode_finalize l _ hsmall.2.2 _ (by have := hsmall.1; omega)]
      rw [hexec]
      simp [Except.map, slice_full]
    · have hIL := hsmall.1
      have hD := hsmall.2.1
      rw [finalize_delta, write_varint_lt128 _ (by omega)]
      simp only [List.length_append, List.length_cons, List.length_nil]
      omega

/-- C9: identity — for any blob, encoding it against itself decodes
back to the blob, and the delta is at most 20 bytes long regardless of
the blob's length. -/
theorem identity_roundtrip (data : List Nat) (hlen : data.length < 2 ^ 64) :
    decode (encode data data) data = .ok data ∧ (encode data data).length ≤ 20 := by
  by_cases h16 : 16 ≤ data.length
  · rw [encode_self_big data h16]
    constructor
    · rw [decode_finalize data [DeltaUnit.copy 0 data.length]
        (by
          intro u hu
          simp only [List.mem_singleton] at hu
          subst hu
          exact ⟨by simpa [DeltaUnit.copy] using hlen, by simp [DeltaUnit.copy],
            fun hc => by simp [DeltaUnit.copy] at hc⟩) []
        (by
          rw [units_bytes_singleton]
          have := wdu_copy0_length_le (show data.length < 2 ^ 64 from hlen)
          omega)]
      rw [exec_copy_step data (by omega : 0 + data.length ≤ data.length) [] [] []]
      rw [exec_units_nil]
      simp only [Except.map, Nat.zero_add, slice_full, List.nil_append]
    · rw [finalize_delta, units_bytes_singleton]
      have hIL := wdu_copy0_length_le (show data.length < 2 ^ 64 from hlen)
      rw [write_varint_lt128 _ (by omega)]
      simp only [List.length_append, List.length_cons, List.length_nil]
      omega
  · by_cases h0 : data.length = 0
    · have hd : data = [] := List.length_eq_zero.mp h0
      subst hd
      constructor
      · have h1 : encode ([] : List Nat) [] = finalize_delta (units_bytes []) [] := rfl
        rw [h1, decode_finalize [] [] (by simp) [] (by decide)]
        rfl
      · have h1 : encode ([] : List Nat) [] = [0] := rfl
        rw [h1]
        simp
    · have h1 : 1 ≤ data.length := by omega
      have h15 : data.length ≤ 15 := by omega
      rw [encode_self_small data h1 h15]
      exact decode_middle_self data h1 h15 _ _

/-- Witness for C9 at a 3-byte blob and a 16-byte blob. -/
theorem identity_roundtrip_witness :
    (decode (encode [10, 20, 30] [10, 20, 30]) [10, 20, 30] = .ok [10, 20, 30] ∧
      (encode [10, 20, 30] [10, 20, 30]).length ≤ 20) ∧
    (decode (encode c1_base c1_base) c1_base = .ok c1_base ∧
      (encode c1_base c1_base).length ≤ 20) :=
  ⟨identity_roundtrip [10, 20, 30] (by norm_num),
    identity_roundtrip c1_base (by norm_num [c1_base])⟩
